import Mathlib

/-!
Verification of the causal-graph orientation engine of
`externals/acceleration/pc/pc.py`: the v-structure orienter
(`orient_v_structure`), the Meek-rule propagation loop (`apply_rules`),
the edge-mark encoder (the adjacency-matrix formatting loop shared by
`fisherz_gpu_gpucsl` / `chi_square_gpu_gpucsl` / `cmiknn_gpu`), the
separation-set packing of `cmiknn_gpu`, and the backend dispatcher
`accelerated_pc`.

The Python graphs are `networkx.DiGraph` objects over node indices
`0 .. n-1`; we embed them as a node count together with a finite set of
directed arcs.  All iteration orders of the source (column-major edge
order, ascending neighbor order, row-major `np.where` order) are
reproduced by explicit list enumerations.
-/

set_option linter.constructorNameAsVariable false

namespace CausalPC

/-- A directed graph over nodes `0 .. n-1`: the embedding of an
`nx.DiGraph` (node set fixed, arc set mutable). -/
structure DGraph where
  n : ℕ
  arcs : Finset (ℕ × ℕ)
deriving DecidableEq

/-- `non_adjacent(g, v_1, v_2)` from `apply_rules`:
no arc in either direction. -/
def non_adjacent (g : DGraph) (a b : ℕ) : Prop :=
  (a, b) ∉ g.arcs ∧ (b, a) ∉ g.arcs

/-- `undirected(g, v_1, v_2)` from `apply_rules`: arcs in both directions. -/
def undirected (g : DGraph) (a b : ℕ) : Prop :=
  (a, b) ∈ g.arcs ∧ (b, a) ∈ g.arcs

instance (g : DGraph) (a b : ℕ) : Decidable (non_adjacent g a b) := by
  unfold non_adjacent; infer_instance

instance (g : DGraph) (a b : ℕ) : Decidable (undirected g a b) := by
  unfold undirected; infer_instance

/-- `dag.add_edge(a, b)` followed by `dag.remove_edges_from([(b, a)])`:
the mutation performed by every successful Meek-rule application. -/
def orientEdge (g : DGraph) (a b : ℕ) : DGraph :=
  ⟨g.n, (insert (a, b) g.arcs).erase (b, a)⟩

/-- All ordered pairs `(v1, v2)` with `v1, v2 < n` in the order of
`sorted(edges, key=lambda e: e[1] * num_nodes + e[0])` (column-major:
`v2` outer, `v1` inner); the rule passes filter this by edge membership. -/
def colMajorPairs (n : ℕ) : List (ℕ × ℕ) :=
  (List.range n).flatMap fun v2 => (List.range n).map fun v1 => (v1, v2)

/-- Candidate firings of Rule 1 computed from the snapshot `dag2 = dag.copy()`:
for directed snapshot edges `v1 → v2` and snapshot-undirected `v2 — v3` with
`v1, v3` snapshot-non-adjacent, the pair `(v2, v3)` to orient.  The live
`undirected(dag, v2, v3)` check happens at application time in `runFirings`. -/
def rule1Cands (g : DGraph) : List (ℕ × ℕ) :=
  (colMajorPairs g.n).flatMap fun p =>
    if (p.1, p.2) ∈ g.arcs ∧ (p.2, p.1) ∉ g.arcs then
      ((List.range g.n).filter fun v3 => decide
        ((p.2, v3) ∈ g.arcs ∧ p.1 ≠ v3 ∧ (v3, p.2) ∈ g.arcs ∧
          non_adjacent g p.1 v3)).map fun v3 => (p.2, v3)
    else []

/-- Candidate firings of Rule 2 computed from the snapshot: for
snapshot-undirected `v1 — v2` and each `v3` with directed snapshot path
`v1 → v3 → v2`, the pair `(v1, v2)` to orient (one firing per such `v3`,
as in the Python loop). -/
def rule2Cands (g : DGraph) : List (ℕ × ℕ) :=
  (colMajorPairs g.n).flatMap fun p =>
    if (p.1, p.2) ∈ g.arcs ∧ (p.2, p.1) ∈ g.arcs then
      ((List.range g.n).filter fun v3 => decide
        ((p.1, v3) ∈ g.arcs ∧ (v3, p.2) ∈ g.arcs ∧
          (v3, p.1) ∉ g.arcs ∧ (p.2, v3) ∉ g.arcs)).map fun _ => (p.1, p.2)
    else []

/-- Candidate firings of Rule 3 computed from the snapshot: for
snapshot-undirected `v1 — v2`, `C` the vertices that are undirected
neighbors of `v1` and directed-only predecessors of `v2`; one firing of
`(v1, v2)` per non-adjacent combination `v3 < v4` from `C`. -/
def rule3Cands (g : DGraph) : List (ℕ × ℕ) :=
  (colMajorPairs g.n).flatMap fun p =>
    if (p.1, p.2) ∈ g.arcs ∧ (p.2, p.1) ∈ g.arcs then
      (((List.range g.n).filter fun v3 => decide
          ((p.1, v3) ∈ g.arcs ∧ (v3, p.1) ∈ g.arcs ∧
            (v3, p.2) ∈ g.arcs ∧ (p.2, v3) ∉ g.arcs)).flatMap fun v3 =>
        ((List.range g.n).filter fun v4 => decide
          ((p.1, v4) ∈ g.arcs ∧ (v4, p.1) ∈ g.arcs ∧
            (v4, p.2) ∈ g.arcs ∧ (p.2, v4) ∉ g.arcs ∧
            v3 < v4 ∧ non_adjacent g v3 v4)).map fun _ => (p.1, p.2))
    else []

/-- Run a list of candidate orientations against the live graph, threading
the number of successful applications (the Python `graph_changed` flag is
`count ≠ 0`).  When `live` is set (Rule 1) a firing is guarded by the
application-time `undirected(dag, v2, v3)` check; Rules 2 and 3 have no
such live guard in the source. -/
def runFirings (live : Bool) (cands : List (ℕ × ℕ)) (st : DGraph × ℕ) :
    DGraph × ℕ :=
  cands.foldl (fun st p =>
    if live ∧ ¬ undirected st.1 p.1 p.2 then st
    else (orientEdge st.1 p.1 p.2, st.2 + 1)) st

/-- The Rule 1 stage of a pass: snapshot the graph, fire the Rule 1
candidates (with the live `undirected` check of the source). -/
def pass1 (g : DGraph) : DGraph × ℕ :=
  runFirings true (rule1Cands g) (g, 0)

/-- The Rule 2 stage: snapshot the graph left by Rule 1
(`dag2 = dag.copy()  # work on current dag after Rule 1`). -/
def pass2 (g : DGraph) : DGraph × ℕ :=
  runFirings false (rule2Cands (pass1 g).1) (pass1 g)

/-- One pass of the `while True` loop of `apply_rules`: Rule 1, then
Rule 2, then Rule 3, each re-deriving its snapshot from the current
graph; returns the mutated graph and the number of rule applications. -/
def onePass (g : DGraph) : DGraph × ℕ :=
  runFirings false (rule3Cands (pass2 g).1) (pass2 g)

/-- Ordered pairs whose edge is still fully undirected (both arcs). -/
def undirSet (g : DGraph) : Finset (ℕ × ℕ) :=
  g.arcs.filter fun p => (p.2, p.1) ∈ g.arcs

/-- Fuel-indexed iteration of `onePass`: repeat while the pass changed
something, as the `while True: ... if not graph_changed: return` loop. -/
def applyRulesAux : ℕ → DGraph → DGraph
  | 0, g => g
  | fuel + 1, g =>
    let s := onePass g
    if s.2 = 0 then s.1 else applyRulesAux fuel s.1

/-- `apply_rules(dag)`: iterate passes to the fixpoint.  The fuel
`(undirSet g).card + 1` is proved sufficient below (each changing pass
strictly reduces the number of undirected edges). -/
def apply_rules (g : DGraph) : DGraph :=
  applyRulesAux ((undirSet g).card + 1) g

/-- The adjacency of the skeleton `dag.to_undirected()` derived inside
`orient_v_structure` when no explicit skeleton is passed. -/
def skelAdj (g : DGraph) (a b : ℕ) : Prop :=
  (a, b) ∈ g.arcs ∨ (b, a) ∈ g.arcs

instance (g : DGraph) (a b : ℕ) : Decidable (skelAdj g a b) := by
  unfold skelAdj; infer_instance

/-- `in_separation_set(v, v_1, v_2)`: membership of node `v` in the row
`separation_sets[v_1][v_2]` of the sentinel-padded tensor. -/
def in_separation_set (sep : ℕ → ℕ → List ℤ) (v v1 v2 : ℕ) : Prop :=
  (v : ℤ) ∈ sep v1 v2

instance (sep : ℕ → ℕ → List ℤ) (v v1 v2 : ℕ) :
    Decidable (in_separation_set sep v v1 v2) := by
  unfold in_separation_set; infer_instance

/-- The enumeration of `orient_v_structure`: ordered skeleton edges
`(v1, v2)` in column-major order, each paired with every skeleton
neighbor `v3` of `v2` in ascending order. -/
def vsTriples (g0 : DGraph) : List (ℕ × ℕ × ℕ) :=
  (colMajorPairs g0.n).flatMap fun p =>
    if skelAdj g0 p.1 p.2 then
      ((List.range g0.n).filter fun v3 =>
        decide (skelAdj g0 p.2 v3)).map fun v3 => (p.1, p.2, v3)
    else []

/-- The body of the `orient_v_structure` loop for a triple `(v1, v2, v3)`:
if the triple is unshielded and `v2` is in neither sepset row of
`{v1, v3}`, add arcs `(v1, v2), (v3, v2)` then remove `(v2, v1), (v2, v3)`. -/
def vsStep (g0 : DGraph) (sep : ℕ → ℕ → List ℤ) (dag : DGraph)
    (t : ℕ × ℕ × ℕ) : DGraph :=
  if t.1 ≠ t.2.2 ∧ ¬ skelAdj g0 t.1 t.2.2 ∧
      ¬ (in_separation_set sep t.2.1 t.1 t.2.2 ∨
         in_separation_set sep t.2.1 t.2.2 t.1) then
    ⟨dag.n, ((insert (t.2.2, t.2.1) (insert (t.1, t.2.1) dag.arcs)).erase
      (t.2.1, t.1)).erase (t.2.1, t.2.2)⟩
  else dag

/-- `orient_v_structure(dag, separation_sets)` with the skeleton derived
from the initial `dag` (the `skeleton=None` path used by `cmiknn_gpu`). -/
def orient_v_structure (g0 : DGraph) (sep : ℕ → ℕ → List ℤ) : DGraph :=
  (vsTriples g0).foldl (vsStep g0 sep) g0

/-- The initial adjacency matrix of the encoder:
`adj_matrix[i, j] = 1` for every arc of the final graph, `0` elsewhere. -/
def adjOf (g : DGraph) : ℕ → ℕ → ℤ :=
  fun i j => if (i, j) ∈ g.arcs then 1 else 0

/-- Single-cell matrix update. -/
def mUpd (m : ℕ → ℕ → ℤ) (i j : ℕ) (v : ℤ) : ℕ → ℕ → ℤ :=
  fun a b => if a = i ∧ b = j then v else m a b

/-- Body of the formatting loop over `zip(*np.where(adj_matrix == 1))`:
two sequential `if`s, the second reading the values written by the first. -/
def fmtStep (m : ℕ → ℕ → ℤ) : ℕ × ℕ → ℕ → ℕ → ℤ
  | (i, j) =>
    let m1 := if m i j = 1 ∧ m j i = 1 then
      mUpd (mUpd m i j (-1)) j i (-1) else m
    if m1 i j = 1 ∧ m1 j i = 0 then
      mUpd (mUpd m1 i j (-1)) j i 1 else m1

/-- The arcs of `g` in the row-major order produced by
`np.where(adj_matrix == 1)`. -/
def rowMajorArcs (g : DGraph) : List (ℕ × ℕ) :=
  (List.range g.n).flatMap fun i =>
    ((List.range g.n).filter fun j => decide ((i, j) ∈ g.arcs)).map fun j =>
      (i, j)

/-- The edge-mark encoder: build the 0/1 arc matrix, then rewrite every
arc entry pair according to the causal-learn convention (both arcs →
both entries `-1`; single arc `i → j` → `matrix[i][j] = -1`,
`matrix[j][i] = 1`). -/
def formatMatrix (g : DGraph) : ℕ → ℕ → ℤ :=
  (rowMajorArcs g).foldl fmtStep (adjOf g)

/-- Closed form of the encoder output (derived below in
`formatMatrix_eq_encode`): `-1` at the tail of any arc, `1` at a pure
arrowhead, `0` where no arc touches the ordered pair. -/
def encodeG (g : DGraph) : ℕ → ℕ → ℤ :=
  fun i j => if (i, j) ∈ g.arcs then -1 else if (j, i) ∈ g.arcs then 1 else 0

/-- Intermediate state of the formatting loop after the arcs in `P` have
been processed (any processing order): used to characterize the loop. -/
def phiFmt (g : DGraph) (P : List (ℕ × ℕ)) : ℕ → ℕ → ℤ :=
  fun i j =>
    if (i, j) ∈ g.arcs then (if (i, j) ∈ P ∨ (j, i) ∈ P then -1 else 1)
    else if (j, i) ∈ g.arcs ∧ (j, i) ∈ P then 1 else 0

/-- Arcs stay inside the `n × n` matrix. -/
def Bounded (g : DGraph) : Prop :=
  ∀ p ∈ g.arcs, p.1 < g.n ∧ p.2 < g.n

instance (g : DGraph) : Decidable (Bounded g) := by
  unfold Bounded; infer_instance

/-- No self-loop arcs (the data-model invariant of the skeleton; the
`cmiknn_gpu` driver zeroes the diagonal before orientation). -/
def Irrefl (g : DGraph) : Prop :=
  ∀ i, (i, i) ∉ g.arcs

/-- Decode rule as the specification states it:
"`matrix[i][j] == 1` means an arrow into `j` from `i`;
`matrix[i][j] == matrix[j][i] == -1` means undirected."
Modelled from the spec, for comparison with the encoder of the source. -/
def decodeSpecRule (m : ℕ → ℕ → ℤ) (n : ℕ) : DGraph :=
  ⟨n, (Finset.range n ×ˢ Finset.range n).filter fun p =>
    m p.1 p.2 = 1 ∨ (m p.1 p.2 = -1 ∧ m p.2 p.1 = -1)⟩

/-- The decode rule matching the encoder of the source: an arc `i → j`
is stored as `matrix[i][j] = -1`, `matrix[j][i] = 1`, so `(i, j)` is an
arc iff `matrix[j][i] == 1`, and both entries `-1` means undirected. -/
def decodeFixedRule (m : ℕ → ℕ → ℤ) (n : ℕ) : DGraph :=
  ⟨n, (Finset.range n ×ˢ Finset.range n).filter fun p =>
    m p.2 p.1 = 1 ∨ (m p.1 p.2 = -1 ∧ m p.2 p.1 = -1)⟩

/-- `skeleton[i, i] = 0` for all `i` (lines preceding the orientation in
`cmiknn_gpu`). -/
def zeroDiag (g : DGraph) : DGraph :=
  ⟨g.n, g.arcs.filter fun p => p.1 ≠ p.2⟩

/-- The sentinel-padded sepset row of `cmiknn_gpu`: a row of
`max_sepset_size` entries filled with `-1`, then
`row[k] = sepset[k]` for every `k < max_sepset_size` (entries of the
recorded sepset beyond the row length are dropped). -/
def packSepset (s : List ℤ) (maxSize : ℕ) : List ℤ :=
  (List.range maxSize).map fun k => if h : k < s.length then s.get ⟨k, h⟩ else -1

/-- The orientation-and-encoding tail of `cmiknn_gpu` on a skeleton and a
packed separation-set store. -/
def cmiknnOrient (skel : DGraph) (sep : ℕ → ℕ → List ℤ) : ℕ → ℕ → ℤ :=
  formatMatrix (apply_rules (orient_v_structure (zeroDiag skel) sep))

/-- First component of a backend's return value: either an `n × n`
integer matrix or a raw directed-graph object. -/
inductive PCValue where
  | mat : (ℕ → ℕ → ℤ) → ℕ → PCValue
  | digraph : DGraph → PCValue

/-- `fisherz_gpu_gpucsl`: formats the backend's directed graph into the
adjacency matrix and returns the matrix. -/
def fisherz_gpu_gpucsl (backendGraph : DGraph) : PCValue :=
  PCValue.mat (formatMatrix backendGraph) backendGraph.n

/-- `chi_square_gpu_gpucsl`: computes the same formatted `adj_matrix` as
the Fisher-Z path but then returns the backend's `directed_graph` object
instead of the matrix (`return directed_graph, info`). -/
def chi_square_gpu_gpucsl (backendGraph : DGraph) : PCValue :=
  PCValue.digraph backendGraph

/-- `cmiknn_gpu`: zero the skeleton diagonal, orient v-structures,
propagate rules, and return the formatted matrix. -/
def cmiknn_gpu (skel : DGraph) (sep : ℕ → ℕ → List ℤ) : PCValue :=
  PCValue.mat (cmiknnOrient skel sep) skel.n

/-- The error message of the dispatcher's `else` branch. -/
def unsupportedMsg (t : String) : String :=
  "Independence test '" ++ (t ++ ("' not supported. Use '" ++ ("fisherz" ++
    ("', '" ++ ("chisq" ++ ("', or '" ++ ("cmiknn" ++ "'.")))))))

/-- The error message of the GPU-availability guard. -/
def gpuUnavailableMsg (t : String) : String :=
  "GPU acceleration is not available for " ++ (t ++
    ". Please compile the GPU extensions or use CPU-based alternatives like 'fisherz'.")

/-- `accelerated_pc`: the backend dispatcher.  The external backends'
outputs (`GaussianPC`, `DiscretePC`, `gpu_single`) are abstract inputs;
the `if/elif` chain and the GPU-availability guard follow the source. -/
def accelerated_pc (indep_test : String) (gpuAvailable : Bool)
    (fzGraph chGraph : DGraph) (cmSkel : DGraph) (cmSep : ℕ → ℕ → List ℤ) :
    Except String PCValue :=
  if indep_test = "cmiknn" ∧ gpuAvailable = false then
    Except.error (gpuUnavailableMsg indep_test)
  else if indep_test = "fisherz" then
    Except.ok (fisherz_gpu_gpucsl fzGraph)
  else if indep_test = "chisq" then
    Except.ok (chi_square_gpu_gpucsl chGraph)
  else if indep_test = "cmiknn" then
    Except.ok (cmiknn_gpu cmSkel cmSep)
  else
    Except.error (unsupportedMsg indep_test)

/-- The closed set of supported independence-test identifiers. -/
def supportedTests : List String := ["fisherz", "chisq", "cmiknn"]

/-! Concrete instances used by the counterexamples and witnesses. -/

/-- Scenario 1 of the spec: skeleton `X1 — X2 — X3` (0-indexed path),
all edges bidirected. -/
def pathSkel3 : DGraph := ⟨3, {(0, 1), (1, 0), (1, 2), (2, 1)}⟩

/-- Separation-set store with every row the all-sentinel row `[-1]`
(`max_sepset_size = 1` for three variables): `sepset(X1, X3)` is empty
and no other pair has a recorded entry. -/
def emptySep3 : ℕ → ℕ → List ℤ := fun _ _ => [-1]

/-- Path skeleton `0 — 1 — 2 — 3`, all edges bidirected. -/
def pathSkel4 : DGraph :=
  ⟨4, {(0, 1), (1, 0), (1, 2), (2, 1), (2, 3), (3, 2)}⟩

/-- All-sentinel separation-set store for four variables
(`max_sepset_size = 2`). -/
def emptySep4 : ℕ → ℕ → List ℤ := fun _ _ => [-1, -1]

/-- Rule-2 conflict graph: the directed 4-cycle `0 → 2 → 1 → 3 → 0`
together with the undirected edge `0 — 1`. -/
def conflictG : DGraph :=
  ⟨4, {(0, 2), (2, 1), (1, 3), (3, 0), (0, 1), (1, 0)}⟩

/-- Double-firing graph: undirected `0 — 1` plus the two directed paths
`0 → 2 → 1` and `0 → 3 → 1`. -/
def doubleFireG : DGraph :=
  ⟨4, {(0, 1), (1, 0), (0, 2), (2, 1), (0, 3), (3, 1)}⟩

/-- A single directed arc `0 → 1` over two nodes. -/
def singleArcG : DGraph := ⟨2, {(0, 1)}⟩

/-! ### Basic lemmas about `orientEdge` -/

theorem mem_orientEdge {g : DGraph} {a b : ℕ} {x : ℕ × ℕ} :
    x ∈ (orientEdge g a b).arcs ↔
      x ≠ (b, a) ∧ (x = (a, b) ∨ x ∈ g.arcs) := by
  simp [orientEdge, Finset.mem_erase, Finset.mem_insert]

theorem mem_undirSet {g : DGraph} {p : ℕ × ℕ} :
    p ∈ undirSet g ↔ p ∈ g.arcs ∧ (p.2, p.1) ∈ g.arcs := by
  simp [undirSet]

theorem undirSet_orientEdge_subset {g : DGraph} {a b : ℕ} :
    undirSet (orientEdge g a b) ⊆ undirSet g := by
  rintro ⟨x, y⟩ hp
  rw [mem_undirSet] at hp ⊢
  obtain ⟨h1, h2⟩ := hp
  rw [mem_orientEdge] at h1 h2
  simp only [ne_eq, Prod.mk.injEq] at h1 h2 ⊢
  obtain ⟨h1ne, h1m⟩ := h1
  obtain ⟨h2ne, h2m⟩ := h2
  constructor
  · rcases h1m with ⟨hx, hy⟩ | h
    · subst hx; subst hy; exact absurd ⟨rfl, rfl⟩ h2ne
    · exact h
  · rcases h2m with ⟨hy, hx⟩ | h
    · subst hy; subst hx; exact absurd ⟨rfl, rfl⟩ h1ne
    · exact h

theorem orientEdge_not_undir {g : DGraph} {a b : ℕ} :
    (a, b) ∉ undirSet (orientEdge g a b) := by
  rw [mem_undirSet]
  rintro ⟨-, h2⟩
  rw [mem_orientEdge] at h2
  exact h2.1 rfl

theorem card_orientEdge_le {g : DGraph} {a b : ℕ}
    (h : a = b ∨ (a, b) ∈ g.arcs ∨ (b, a) ∈ g.arcs) :
    (orientEdge g a b).arcs.card ≤ g.arcs.card := by
  rcases h with h | h | h
  · subst h
    have : ((a, a) : ℕ × ℕ) ∈ insert ((a, a) : ℕ × ℕ) g.arcs :=
      Finset.mem_insert_self _ _
    calc (orientEdge g a a).arcs.card
        = (insert ((a, a) : ℕ × ℕ) g.arcs).card - 1 :=
          Finset.card_erase_of_mem this
      _ ≤ (g.arcs.card + 1) - 1 :=
          Nat.sub_le_sub_right (Finset.card_insert_le _ _) 1
      _ ≤ g.arcs.card := by omega
  · have : insert ((a, b) : ℕ × ℕ) g.arcs = g.arcs := Finset.insert_eq_self.2 h
    calc (orientEdge g a b).arcs.card
        ≤ (insert ((a, b) : ℕ × ℕ) g.arcs).card := Finset.card_erase_le
      _ = g.arcs.card := by rw [this]
  · have hm : ((b, a) : ℕ × ℕ) ∈ insert ((a, b) : ℕ × ℕ) g.arcs :=
      Finset.mem_insert_of_mem h
    calc (orientEdge g a b).arcs.card
        = (insert ((a, b) : ℕ × ℕ) g.arcs).card - 1 :=
          Finset.card_erase_of_mem hm
      _ ≤ (g.arcs.card + 1) - 1 :=
          Nat.sub_le_sub_right (Finset.card_insert_le _ _) 1
      _ ≤ g.arcs.card := by omega

/-! ### Lemmas about `runFirings` -/

theorem runFirings_nil {live : Bool} {st : DGraph × ℕ} :
    runFirings live [] st = st := rfl

theorem runFirings_cons {live : Bool} {p : ℕ × ℕ} {cands : List (ℕ × ℕ)}
    {st : DGraph × ℕ} :
    runFirings live (p :: cands) st =
      runFirings live cands
        (if live ∧ ¬ undirected st.1 p.1 p.2 then st
         else (orientEdge st.1 p.1 p.2, st.2 + 1)) := rfl

theorem runFirings_count_le (live : Bool) :
    ∀ (cands : List (ℕ × ℕ)) (st : DGraph × ℕ),
      st.2 ≤ (runFirings live cands st).2 := by
  intro cands
  induction cands with
  | nil => intro st; exact Nat.le_refl _
  | cons p rest ih =>
    intro st
    rw [runFirings_cons]
    by_cases h : live ∧ ¬ undirected st.1 p.1 p.2
    · rw [if_pos h]; exact ih st
    · rw [if_neg h]
      have hrec : st.2 + 1 ≤
          (runFirings live rest (orientEdge st.1 p.1 p.2, st.2 + 1)).2 :=
        ih (orientEdge st.1 p.1 p.2, st.2 + 1)
      omega

theorem runFirings_count_eq (live : Bool) :
    ∀ (cands : List (ℕ × ℕ)) (st : DGraph × ℕ),
      (runFirings live cands st).2 = st.2 →
      (runFirings live cands st).1 = st.1 := by
  intro cands
  induction cands with
  | nil => intro st _; rfl
  | cons p rest ih =>
    intro st h
    rw [runFirings_cons] at h ⊢
    by_cases hc : live ∧ ¬ undirected st.1 p.1 p.2
    · rw [if_pos hc] at h ⊢; exact ih st h
    · rw [if_neg hc] at h
      have hle : st.2 + 1 ≤
          (runFirings live rest (orientEdge st.1 p.1 p.2, st.2 + 1)).2 :=
        runFirings_count_le live rest (orientEdge st.1 p.1 p.2, st.2 + 1)
      omega

theorem runFirings_undirSet_subset (live : Bool) :
    ∀ (cands : List (ℕ × ℕ)) (st : DGraph × ℕ),
      undirSet (runFirings live cands st).1 ⊆ undirSet st.1 := by
  intro cands
  induction cands with
  | nil => intro st; exact Finset.Subset.refl _
  | cons p rest ih =>
    intro st
    rw [runFirings_cons]
    by_cases hc : live ∧ ¬ undirected st.1 p.1 p.2
    · rw [if_pos hc]; exact ih st
    · rw [if_neg hc]
      exact Finset.Subset.trans (ih _) undirSet_orientEdge_subset

theorem runFirings_decrease (live : Bool) (snap : DGraph) :
    ∀ (cands : List (ℕ × ℕ)) (st : DGraph × ℕ),
      (∀ p ∈ cands, p ∈ undirSet snap) →
      st.2 < (runFirings live cands st).2 →
      ∃ p ∈ undirSet snap, p ∉ undirSet (runFirings live cands st).1 := by
  intro cands
  induction cands with
  | nil => intro st _ h; exact absurd h (by simp [runFirings_nil])
  | cons p rest ih =>
    intro st hc hlt
    rw [runFirings_cons] at hlt ⊢
    by_cases hfire : live ∧ ¬ undirected st.1 p.1 p.2
    · rw [if_pos hfire] at hlt ⊢
      exact ih st (fun q hq => hc q (List.mem_cons_of_mem _ hq)) hlt
    · rw [if_neg hfire]
      refine ⟨p, hc p (List.mem_cons_self _ _), fun hmem => ?_⟩
      have hsub := runFirings_undirSet_subset live rest
        (orientEdge st.1 p.1 p.2, st.2 + 1)
      have : p ∈ undirSet (orientEdge st.1 p.1 p.2) := hsub hmem
      exact orientEdge_not_undir this

theorem runFirings_card_le (live : Bool) (snap : DGraph) :
    ∀ (cands : List (ℕ × ℕ)) (st : DGraph × ℕ),
      (∀ p ∈ cands, p ∈ undirSet snap) →
      (∀ q1 q2 : ℕ, (q1, q2) ∈ undirSet snap → q1 ≠ q2 →
        (q1, q2) ∈ st.1.arcs ∨ (q2, q1) ∈ st.1.arcs) →
      (runFirings live cands st).1.arcs.card ≤ st.1.arcs.card := by
  intro cands
  induction cands with
  | nil => intro st _ _; exact Nat.le_refl _
  | cons p rest ih =>
    obtain ⟨p1, p2⟩ := p
    intro st hc hinv
    rw [runFirings_cons]
    by_cases hfire : live ∧ ¬ undirected st.1 (p1, p2).1 (p1, p2).2
    · rw [if_pos hfire]
      exact ih st (fun q hq => hc q (List.mem_cons_of_mem _ hq)) hinv
    · rw [if_neg hfire]
      have hp : (p1, p2) ∈ undirSet snap := hc _ (List.mem_cons_self _ _)
      have hstep : (orientEdge st.1 p1 p2).arcs.card ≤ st.1.arcs.card := by
        by_cases hd : p1 = p2
        · exact card_orientEdge_le (Or.inl hd)
        · exact card_orientEdge_le (Or.inr (hinv p1 p2 hp hd))
      have hinv' : ∀ q1 q2 : ℕ, (q1, q2) ∈ undirSet snap → q1 ≠ q2 →
          (q1, q2) ∈ (orientEdge st.1 p1 p2).arcs ∨
            (q2, q1) ∈ (orientEdge st.1 p1 p2).arcs := by
        intro q1 q2 hq hqd
        by_cases h1 : (q1, q2) = ((p2 : ℕ), (p1 : ℕ))
        · right
          rw [mem_orientEdge]
          rw [Prod.mk.injEq] at h1
          obtain ⟨e1, e2⟩ := h1
          constructor
          · rw [Ne, Prod.mk.injEq]
            rintro ⟨f1, f2⟩
            exact hqd (by omega)
          · exact Or.inl (by rw [Prod.mk.injEq]; omega)
        · by_cases h2 : (q2, q1) = ((p2 : ℕ), (p1 : ℕ))
          · left
            rw [mem_orientEdge]
            rw [Prod.mk.injEq] at h2
            obtain ⟨e1, e2⟩ := h2
            constructor
            · rw [Ne, Prod.mk.injEq]
              rintro ⟨f1, f2⟩
              exact hqd (by omega)
            · exact Or.inl (by rw [Prod.mk.injEq]; omega)
          · rcases hinv q1 q2 hq hqd with h | h
            · left
              rw [mem_orientEdge]
              exact ⟨h1, Or.inr h⟩
            · right
              rw [mem_orientEdge]
              exact ⟨h2, Or.inr h⟩
      exact Nat.le_trans
        (ih (orientEdge st.1 p1 p2, st.2 + 1)
          (fun q hq => hc q (List.mem_cons_of_mem _ hq)) hinv') hstep

theorem runFirings_live_preserves_directed :
    ∀ (cands : List (ℕ × ℕ)) (st : DGraph × ℕ) (a b : ℕ),
      (a, b) ∈ st.1.arcs → (b, a) ∉ st.1.arcs →
      (a, b) ∈ (runFirings true cands st).1.arcs ∧
        (b, a) ∉ (runFirings true cands st).1.arcs := by
  intro cands
  induction cands with
  | nil => intro st a b h1 h2; exact ⟨h1, h2⟩
  | cons p rest ih =>
    obtain ⟨p1, p2⟩ := p
    intro st a b h1 h2
    rw [runFirings_cons]
    by_cases hfire : (true : Bool) ∧ ¬ undirected st.1 (p1, p2).1 (p1, p2).2
    · rw [if_pos hfire]; exact ih st a b h1 h2
    · rw [if_neg hfire]
      have hu : undirected st.1 p1 p2 := by
        by_contra hno
        exact hfire ⟨rfl, hno⟩
      obtain ⟨hu1, hu2⟩ := hu
      have hba : (b, a) ∉ (orientEdge st.1 p1 p2).arcs := by
        rw [mem_orientEdge]
        rintro ⟨-, hm⟩
        rcases hm with hm | hm
        · rw [hm] at h2; exact h2 hu1
        · exact h2 hm
      have hab : (a, b) ∈ (orientEdge st.1 p1 p2).arcs := by
        rw [mem_orientEdge]
        refine ⟨?_, Or.inr h1⟩
        rw [Ne, Prod.mk.injEq]
        rintro ⟨f1, f2⟩
        subst f1; subst f2
        exact h2 hu1
      exact ih _ a b hab hba

/-! ### Candidates of the three rules are snapshot-undirected edges -/

theorem mem_rule1Cands_undir {g : DGraph} {p : ℕ × ℕ}
    (h : p ∈ rule1Cands g) : p ∈ undirSet g := by
  rw [rule1Cands, List.mem_flatMap] at h
  obtain ⟨q, -, hmem⟩ := h
  by_cases hc : (q.1, q.2) ∈ g.arcs ∧ (q.2, q.1) ∉ g.arcs
  · rw [if_pos hc, List.mem_map] at hmem
    obtain ⟨v3, hv3, rfl⟩ := hmem
    rw [List.mem_filter] at hv3
    have := of_decide_eq_true hv3.2
    rw [mem_undirSet]
    exact ⟨this.1, this.2.2.1⟩
  · rw [if_neg hc] at hmem
    exact absurd hmem (List.not_mem_nil _)

theorem mem_rule2Cands_undir {g : DGraph} {p : ℕ × ℕ}
    (h : p ∈ rule2Cands g) : p ∈ undirSet g := by
  rw [rule2Cands, List.mem_flatMap] at h
  obtain ⟨q, -, hmem⟩ := h
  by_cases hc : (q.1, q.2) ∈ g.arcs ∧ (q.2, q.1) ∈ g.arcs
  · rw [if_pos hc, List.mem_map] at hmem
    obtain ⟨v3, -, rfl⟩ := hmem
    rw [mem_undirSet]
    exact hc
  · rw [if_neg hc] at hmem
    exact absurd hmem (List.not_mem_nil _)

theorem mem_rule3Cands_undir {g : DGraph} {p : ℕ × ℕ}
    (h : p ∈ rule3Cands g) : p ∈ undirSet g := by
  rw [rule3Cands, List.mem_flatMap] at h
  obtain ⟨q, -, hmem⟩ := h
  by_cases hc : (q.1, q.2) ∈ g.arcs ∧ (q.2, q.1) ∈ g.arcs
  · rw [if_pos hc, List.mem_flatMap] at hmem
    obtain ⟨v3, -, hmem⟩ := hmem
    rw [List.mem_map] at hmem
    obtain ⟨v4, -, rfl⟩ := hmem
    rw [mem_undirSet]
    exact hc
  · rw [if_neg hc] at hmem
    exact absurd hmem (List.not_mem_nil _)

/-! ### Pass-level lemmas -/

theorem pass1_eq (g : DGraph) :
    pass1 g = runFirings true (rule1Cands g) (g, 0) := rfl

theorem pass2_eq (g : DGraph) :
    pass2 g = runFirings false (rule2Cands (pass1 g).1) (pass1 g) := rfl

theorem onePass_eq (g : DGraph) :
    onePass g = runFirings false (rule3Cands (pass2 g).1) (pass2 g) := rfl

theorem pass1_count_le (g : DGraph) : 0 ≤ (pass1 g).2 := Nat.zero_le _

theorem pass2_count_ge (g : DGraph) : (pass1 g).2 ≤ (pass2 g).2 :=
  runFirings_count_le false _ (pass1 g)

theorem onePass_count_ge (g : DGraph) : (pass2 g).2 ≤ (onePass g).2 :=
  runFirings_count_le false _ (pass2 g)

theorem pass1_undirSet_subset (g : DGraph) :
    undirSet (pass1 g).1 ⊆ undirSet g :=
  runFirings_undirSet_subset true _ (g, 0)

theorem pass2_undirSet_subset (g : DGraph) :
    undirSet (pass2 g).1 ⊆ undirSet (pass1 g).1 :=
  runFirings_undirSet_subset false _ (pass1 g)

theorem onePass_undirSet_subset (g : DGraph) :
    undirSet (onePass g).1 ⊆ undirSet (pass2 g).1 :=
  runFirings_undirSet_subset false _ (pass2 g)

theorem onePass_undirSet_subset' (g : DGraph) :
    undirSet (onePass g).1 ⊆ undirSet g :=
  Finset.Subset.trans (onePass_undirSet_subset g)
    (Finset.Subset.trans (pass2_undirSet_subset g) (pass1_undirSet_subset g))

/-- A pass that fired no rule left the graph unchanged. -/
theorem onePass_count_zero {g : DGraph} (h : (onePass g).2 = 0) :
    (onePass g).1 = g := by
  have h2 : (pass2 g).2 = 0 := by
    have := onePass_count_ge g
    omega
  have h1 : (pass1 g).2 = 0 := by
    have := pass2_count_ge g
    omega
  have e1 : (pass1 g).1 = g :=
    runFirings_count_eq true _ (g, 0) h1
  have e2 : (pass2 g).1 = (pass1 g).1 :=
    runFirings_count_eq false _ (pass1 g)
      (show (pass2 g).2 = (pass1 g).2 by rw [h2, h1])
  have e3 : (onePass g).1 = (pass2 g).1 :=
    runFirings_count_eq false _ (pass2 g)
      (show (onePass g).2 = (pass2 g).2 by rw [h, h2])
  rw [e3, e2, e1]

theorem applyRulesAux_zero (g : DGraph) : applyRulesAux 0 g = g := rfl

theorem applyRulesAux_succ (f : ℕ) (g : DGraph) :
    applyRulesAux (f + 1) g =
      if (onePass g).2 = 0 then (onePass g).1
      else applyRulesAux f (onePass g).1 := rfl

theorem apply_rules_eq (g : DGraph) :
    apply_rules g = applyRulesAux ((undirSet g).card + 1) g := rfl

/-- **C1** (corrected), counterexample: on the 3-variable scenario
(skeleton `X1 — X2 — X3`, `X1, X3` non-adjacent, empty sepset) the full
pipeline does not produce the entries `[0][1] = 1`, `[1][0] = -1`,
`[2][1] = 1`, `[1][2] = -1` stated by the claim: the produced signs are
the opposite ones. -/
theorem c1_counterexample :
    ¬ (cmiknnOrient pathSkel3 emptySep3 0 1 = 1 ∧
       cmiknnOrient pathSkel3 emptySep3 1 0 = -1 ∧
       cmiknnOrient pathSkel3 emptySep3 2 1 = 1 ∧
       cmiknnOrient pathSkel3 emptySep3 1 2 = -1) := by decide

/-- **C1** (corrected), amended claim: the pipeline orients the collider
into `X2` (final arcs `0 → 1` and `2 → 1`) and, per §4.3 of the spec
(tail `-1` at the source, arrowhead `1` at the target), the output matrix
has `[0][1] = -1`, `[1][0] = 1`, `[2][1] = -1`, `[1][2] = 1`, and `0` on
the non-adjacent pair. -/
theorem c1_amended :
    (apply_rules (orient_v_structure (zeroDiag pathSkel3) emptySep3)).arcs =
        {(0, 1), (2, 1)} ∧
      cmiknnOrient pathSkel3 emptySep3 0 1 = -1 ∧
      cmiknnOrient pathSkel3 emptySep3 1 0 = 1 ∧
      cmiknnOrient pathSkel3 emptySep3 2 1 = -1 ∧
      cmiknnOrient pathSkel3 emptySep3 1 2 = 1 ∧
      cmiknnOrient pathSkel3 emptySep3 0 2 = 0 ∧
      cmiknnOrient pathSkel3 emptySep3 2 0 = 0 := by decide

/-- **C2** (corrected), counterexample: in the Rule 2 stage of a single
pass on `conflictG` (Rule 1 produces no candidate, so the stage snapshot
is `conflictG` itself), the two snapshot candidates fire in order
`(1,0)` then `(0,1)`: after the first firing the edge `{0,1}` already
has the single direction `1 → 0`, and the second firing re-orients it to
`0 → 1` — a later rule firing re-orients an edge that already had a
single direction. -/
theorem c2_counterexample :
    rule1Cands conflictG = [] ∧
    rule2Cands conflictG = [(1, 0), (0, 1)] ∧
    (1, 0) ∈ (runFirings false [(1, 0)] (conflictG, 0)).1.arcs ∧
    (0, 1) ∉ (runFirings false [(1, 0)] (conflictG, 0)).1.arcs ∧
    (0, 1) ∈ (runFirings false [(1, 0), (0, 1)] (conflictG, 0)).1.arcs ∧
    (1, 0) ∉ (runFirings false [(1, 0), (0, 1)] (conflictG, 0)).1.arcs := by
  decide

/-- **C3** (corrected), counterexample: one pass on `doubleFireG`
performs two successful rule applications (Rule 2 fires twice on the
same edge via the two directed paths) but removes only one arc in total,
so "every successful rule application removes exactly one arc" fails:
the second application removes no arc at all. -/
theorem c3_counterexample :
    (onePass doubleFireG).2 = 2 ∧
    doubleFireG.arcs.card = 6 ∧
    (onePass doubleFireG).1.arcs.card = 5 := by decide

/-- **C5** (corrected), counterexample: with no recorded separation-set
entry for the non-adjacent pair `(0, 2)` (its rows hold only the `-1`
sentinel), `orient_v_structure` raises nothing: the membership test
treats the middle vertex as absent from the separation set and the
collider is oriented. -/
theorem c5_counterexample :
    ¬ in_separation_set emptySep3 1 0 2 ∧
    ¬ in_separation_set emptySep3 1 2 0 ∧
    (orient_v_structure (zeroDiag pathSkel3) emptySep3).arcs =
      {(0, 1), (2, 1)} := by decide

/-- **C6** (corrected), counterexample: enumerating the unshielded
triples of the path skeleton `0 — 1 — 2 — 3` (all sepsets empty) in
reversed order yields a different final arc set than the source's
canonical order, though the two enumerations are permutations of each
other: the shared edge `{1, 2}` is oriented by whichever conflicting
collider fires last. -/
theorem c6_counterexample :
    (vsTriples pathSkel4).reverse.Perm (vsTriples pathSkel4) ∧
    (vsTriples pathSkel4).reverse.foldl (vsStep pathSkel4 emptySep4)
        pathSkel4 ≠
      (vsTriples pathSkel4).foldl (vsStep pathSkel4 emptySep4) pathSkel4 := by
  decide

/-- **C7** (corrected), counterexample: encoding the single arc `0 → 1`,
decoding with the decode rule exactly as the spec states it
(`matrix[i][j] == 1` means an arrow from `i` into `j`), and re-encoding
does not reproduce the original matrix: entry `(0, 1)` changes from `-1`
to `1`. -/
theorem c7_counterexample :
    formatMatrix singleArcG 0 1 = -1 ∧
    formatMatrix (decodeSpecRule (formatMatrix singleArcG) 2) 0 1 = 1 := by
  decide

/-!
The iteration definitions are opaque from here on: all further reasoning
goes through the interface lemmas above, and concrete instances are
evaluated in the theorems preceding this point.
-/
attribute [irreducible] runFirings rule1Cands rule2Cands rule3Cands
attribute [irreducible] pass1 pass2 onePass applyRulesAux apply_rules

/-- The key termination measure: a changing pass strictly reduces the
number of still-undirected ordered pairs. -/
theorem onePass_decrease {g : DGraph} (h : (onePass g).2 ≠ 0) :
    (undirSet (onePass g).1).card < (undirSet g).card := by
  have hsub : undirSet (onePass g).1 ⊆ undirSet g := onePass_undirSet_subset' g
  have hwitness : ∃ p ∈ undirSet g, p ∉ undirSet (onePass g).1 := by
    by_cases h1 : 0 < (pass1 g).2
    · have h1' : ((g, 0) : DGraph × ℕ).2 <
          (runFirings true (rule1Cands g) (g, 0)).2 := by
        rw [← pass1_eq]; exact h1
      obtain ⟨p, hp, hnp⟩ :=
        runFirings_decrease true g (rule1Cands g) (g, 0)
          (fun p hp => mem_rule1Cands_undir hp) h1'
      rw [← pass1_eq] at hnp
      refine ⟨p, hp, fun hmem => hnp ?_⟩
      exact pass2_undirSet_subset g (onePass_undirSet_subset g hmem)
    · by_cases h2 : (pass1 g).2 < (pass2 g).2
      · have h2' : (pass1 g).2 <
            (runFirings false (rule2Cands (pass1 g).1) (pass1 g)).2 := by
          rw [← pass2_eq]; exact h2
        obtain ⟨p, hp, hnp⟩ :=
          runFirings_decrease false (pass1 g).1
            (rule2Cands (pass1 g).1) (pass1 g)
            (fun p hp => mem_rule2Cands_undir hp) h2'
        rw [← pass2_eq] at hnp
        refine ⟨p, pass1_undirSet_subset g hp, fun hmem => hnp ?_⟩
        exact onePass_undirSet_subset g hmem
      · have h3 : (pass2 g).2 < (onePass g).2 := by
          have ha := pass2_count_ge g
          have hb := onePass_count_ge g
          omega
        have h3' : (pass2 g).2 <
            (runFirings false (rule3Cands (pass2 g).1) (pass2 g)).2 := by
          rw [← onePass_eq]; exact h3
        obtain ⟨p, hp, hnp⟩ :=
          runFirings_decrease false (pass2 g).1
            (rule3Cands (pass2 g).1) (pass2 g)
            (fun p hp => mem_rule3Cands_undir hp) h3'
        rw [← onePass_eq] at hnp
        exact ⟨p, pass1_undirSet_subset g (pass2_undirSet_subset g hp), hnp⟩
  obtain ⟨p, hp, hnp⟩ := hwitness
  exact Finset.card_lt_card
    ((Finset.ssubset_iff_of_subset hsub).2 ⟨p, hp, hnp⟩)

/-- Arc count does not increase across a pass. -/
theorem onePass_card_le (g : DGraph) :
    (onePass g).1.arcs.card ≤ g.arcs.card := by
  have inv1 : ∀ q1 q2 : ℕ, (q1, q2) ∈ undirSet g → q1 ≠ q2 →
      (q1, q2) ∈ g.arcs ∨ (q2, q1) ∈ g.arcs := by
    intro q1 q2 hq _
    exact Or.inl (mem_undirSet.1 hq).1
  have inv2 : ∀ q1 q2 : ℕ, (q1, q2) ∈ undirSet (pass1 g).1 → q1 ≠ q2 →
      (q1, q2) ∈ (pass1 g).1.arcs ∨ (q2, q1) ∈ (pass1 g).1.arcs := by
    intro q1 q2 hq _
    exact Or.inl (mem_undirSet.1 hq).1
  have inv3 : ∀ q1 q2 : ℕ, (q1, q2) ∈ undirSet (pass2 g).1 → q1 ≠ q2 →
      (q1, q2) ∈ (pass2 g).1.arcs ∨ (q2, q1) ∈ (pass2 g).1.arcs := by
    intro q1 q2 hq _
    exact Or.inl (mem_undirSet.1 hq).1
  have c1 : (pass1 g).1.arcs.card ≤ g.arcs.card := by
    rw [pass1_eq]
    exact runFirings_card_le true g (rule1Cands g) (g, 0)
      (fun p hp => mem_rule1Cands_undir hp) inv1
  have c2 : (pass2 g).1.arcs.card ≤ (pass1 g).1.arcs.card := by
    rw [pass2_eq]
    exact runFirings_card_le false (pass1 g).1
      (rule2Cands (pass1 g).1) (pass1 g)
      (fun p hp => mem_rule2Cands_undir hp) inv2
  have c3 : (onePass g).1.arcs.card ≤ (pass2 g).1.arcs.card := by
    rw [onePass_eq]
    exact runFirings_card_le false (pass2 g).1
      (rule3Cands (pass2 g).1) (pass2 g)
      (fun p hp => mem_rule3Cands_undir hp) inv3
  omega

/-- Sufficient fuel: with more fuel than undirected pairs, the iteration
reaches a pass that changes nothing. -/
theorem applyRulesAux_fix :
    ∀ (fuel : ℕ) (g : DGraph), (undirSet g).card < fuel →
      (onePass (applyRulesAux fuel g)).2 = 0 := by
  intro fuel
  induction fuel with
  | zero => intro g h; exact absurd h (Nat.not_lt_zero _)
  | succ f ih =>
    intro g h
    rw [applyRulesAux_succ]
    by_cases hz : (onePass g).2 = 0
    · rw [if_pos hz]
      rw [onePass_count_zero hz]
      exact hz
    · rw [if_neg hz]
      have := onePass_decrease hz
      exact ih (onePass g).1 (by omega)

/-- `apply_rules` reaches the Python loop's exit condition: one more
pass over its result fires no rule. -/
theorem apply_rules_fix (g : DGraph) :
    (onePass (apply_rules g)).2 = 0 := by
  rw [apply_rules_eq]
  exact applyRulesAux_fix _ g (Nat.lt_succ_self _)

/-! ### Adjacency preservation -/

theorem skelAdj_symm {g : DGraph} {a b : ℕ} :
    skelAdj g a b ↔ skelAdj g b a := or_comm

theorem skelAdj_ne {g : DGraph} {a b : ℕ} (hIrr : Irrefl g)
    (hadj : skelAdj g a b) : a ≠ b := by
  rintro rfl
  rcases hadj with h | h <;> exact hIrr _ h

theorem orientEdge_irrefl {dag : DGraph} {a b : ℕ} (hne : a ≠ b)
    (hIrr : Irrefl dag) : Irrefl (orientEdge dag a b) := by
  intro i hmem
  rw [mem_orientEdge] at hmem
  rcases hmem with ⟨-, heq | hm⟩
  · rw [Prod.mk.injEq] at heq
    omega
  · exact hIrr i hm

theorem orientEdge_adjEq {dag : DGraph} {a b : ℕ} (hne : a ≠ b)
    (hadj : skelAdj dag a b) (x y : ℕ) :
    skelAdj (orientEdge dag a b) x y ↔ skelAdj dag x y := by
  by_cases h1 : x = a ∧ y = b
  · obtain ⟨rfl, rfl⟩ := h1
    apply iff_of_true
    · refine Or.inl (mem_orientEdge.2 ⟨?_, Or.inl rfl⟩)
      rw [Ne, Prod.mk.injEq]
      rintro ⟨e1, -⟩
      exact hne e1
    · exact hadj
  · by_cases h2 : x = b ∧ y = a
    · obtain ⟨rfl, rfl⟩ := h2
      apply iff_of_true
      · refine Or.inr (mem_orientEdge.2 ⟨?_, Or.inl rfl⟩)
        rw [Ne, Prod.mk.injEq]
        rintro ⟨e1, -⟩
        exact hne e1
      · exact skelAdj_symm.1 hadj
    · simp only [skelAdj, mem_orientEdge, ne_eq, Prod.mk.injEq]
      constructor
      · rintro (⟨-, ⟨e1, e2⟩ | hm⟩ | ⟨-, ⟨e1, e2⟩ | hm⟩)
        · exact absurd ⟨e1, e2⟩ h1
        · exact Or.inl hm
        · exact absurd ⟨e2, e1⟩ h2
        · exact Or.inr hm
      · rintro (hm | hm)
        · refine Or.inl ⟨?_, Or.inr hm⟩
          rintro ⟨e1, e2⟩
          exact h2 ⟨e1, e2⟩
        · refine Or.inr ⟨?_, Or.inr hm⟩
          rintro ⟨e1, e2⟩
          exact h1 ⟨e2, e1⟩

theorem runFirings_adjEq (live : Bool) (snap R : DGraph) :
    ∀ (cands : List (ℕ × ℕ)) (st : DGraph × ℕ),
      (∀ p ∈ cands, p ∈ undirSet snap) →
      Irrefl snap →
      (∀ a b, skelAdj snap a b ↔ skelAdj R a b) →
      Irrefl st.1 →
      (∀ a b, skelAdj st.1 a b ↔ skelAdj R a b) →
      Irrefl (runFirings live cands st).1 ∧
        ∀ a b, skelAdj (runFirings live cands st).1 a b ↔ skelAdj R a b := by
  intro cands
  induction cands with
  | nil =>
    intro st _ _ _ h4 h5
    rw [runFirings_nil]
    exact ⟨h4, h5⟩
  | cons p rest ih =>
    intro st hc hIs hAs hI hA
    rw [runFirings_cons]
    by_cases hfire : live ∧ ¬ undirected st.1 p.1 p.2
    · rw [if_pos hfire]
      exact ih st (fun q hq => hc q (List.mem_cons_of_mem _ hq)) hIs hAs hI hA
    · rw [if_neg hfire]
      have hp : p ∈ undirSet snap := hc p (List.mem_cons_self _ _)
      obtain ⟨hp1, hp2⟩ := mem_undirSet.1 hp
      have hne : p.1 ≠ p.2 := by
        rintro heq
        apply hIs p.1
        have : ((p.1 : ℕ), p.2) = (p.1, p.1) := by rw [← heq]
        rw [← this]
        exact hp1
      have hadjsnap : skelAdj snap p.1 p.2 := Or.inl hp1
      have hadjst : skelAdj st.1 p.1 p.2 :=
        (hA p.1 p.2).2 ((hAs p.1 p.2).1 hadjsnap)
      exact ih (orientEdge st.1 p.1 p.2, st.2 + 1)
        (fun q hq => hc q (List.mem_cons_of_mem _ hq)) hIs hAs
        (orientEdge_irrefl hne hI)
        (fun a b => Iff.trans (orientEdge_adjEq hne hadjst a b) (hA a b))

theorem onePass_adjEq {R g : DGraph} (hIrr : Irrefl g)
    (hAdj : ∀ a b, skelAdj g a b ↔ skelAdj R a b) :
    Irrefl (onePass g).1 ∧
      ∀ a b, skelAdj (onePass g).1 a b ↔ skelAdj R a b := by
  have s1 := runFirings_adjEq true g R (rule1Cands g) (g, 0)
    (fun p hp => mem_rule1Cands_undir hp) hIrr hAdj hIrr hAdj
  rw [← pass1_eq] at s1
  have s2 := runFirings_adjEq false (pass1 g).1 R (rule2Cands (pass1 g).1)
    (pass1 g) (fun p hp => mem_rule2Cands_undir hp) s1.1 s1.2 s1.1 s1.2
  rw [← pass2_eq] at s2
  have s3 := runFirings_adjEq false (pass2 g).1 R (rule3Cands (pass2 g).1)
    (pass2 g) (fun p hp => mem_rule3Cands_undir hp) s2.1 s2.2 s2.1 s2.2
  rw [← onePass_eq] at s3
  exact s3

theorem applyRulesAux_adjEq (R : DGraph) :
    ∀ (fuel : ℕ) (g : DGraph), Irrefl g →
      (∀ a b, skelAdj g a b ↔ skelAdj R a b) →
      Irrefl (applyRulesAux fuel g) ∧
        ∀ a b, skelAdj (applyRulesAux fuel g) a b ↔ skelAdj R a b := by
  intro fuel
  induction fuel with
  | zero =>
    intro g hI hA
    rw [applyRulesAux_zero]
    exact ⟨hI, hA⟩
  | succ f ih =>
    intro g hI hA
    rw [applyRulesAux_succ]
    by_cases hz : (onePass g).2 = 0
    · rw [if_pos hz]
      exact onePass_adjEq hI hA
    · rw [if_neg hz]
      exact ih (onePass g).1 (onePass_adjEq hI hA).1 (onePass_adjEq hI hA).2

theorem apply_rules_adjEq {R g : DGraph} (hIrr : Irrefl g)
    (hAdj : ∀ a b, skelAdj g a b ↔ skelAdj R a b) :
    Irrefl (apply_rules g) ∧
      ∀ a b, skelAdj (apply_rules g) a b ↔ skelAdj R a b := by
  rw [apply_rules_eq]
  exact applyRulesAux_adjEq R _ g hIrr hAdj

/-! ### V-structure orientation: adjacency preservation -/

theorem mem_vsTriples {g0 : DGraph} {t : ℕ × ℕ × ℕ}
    (h : t ∈ vsTriples g0) :
    skelAdj g0 t.1 t.2.1 ∧ skelAdj g0 t.2.1 t.2.2 := by
  rw [vsTriples, List.mem_flatMap] at h
  obtain ⟨q, -, hmem⟩ := h
  by_cases hc : skelAdj g0 q.1 q.2
  · rw [if_pos hc, List.mem_map] at hmem
    obtain ⟨v3, hv3, rfl⟩ := hmem
    rw [List.mem_filter] at hv3
    exact ⟨hc, of_decide_eq_true hv3.2⟩
  · rw [if_neg hc] at hmem
    exact absurd hmem (List.not_mem_nil _)

/-- The mutation of `orient_v_structure` for a firing triple equals two
sequential single-edge orientations. -/
theorem vsStep_fire_eq {dag : DGraph} {v1 v2 v3 : ℕ} (h13 : v1 ≠ v3) :
    (⟨dag.n, ((insert ((v3 : ℕ), (v2 : ℕ))
        (insert ((v1 : ℕ), (v2 : ℕ)) dag.arcs)).erase
          (v2, v1)).erase (v2, v3)⟩ : DGraph) =
      orientEdge (orientEdge dag v1 v2) v3 v2 := by
  have hne : ((v3 : ℕ), (v2 : ℕ)) ≠ (v2, v1) := by
    rw [Ne, Prod.mk.injEq]
    rintro ⟨e1, e2⟩
    exact h13 (by omega)
  show (⟨dag.n, _⟩ : DGraph) = ⟨dag.n, _⟩
  rw [DGraph.mk.injEq]
  refine ⟨rfl, ?_⟩
  show ((insert ((v3 : ℕ), (v2 : ℕ))
      (insert ((v1 : ℕ), (v2 : ℕ)) dag.arcs)).erase (v2, v1)).erase (v2, v3) =
    (insert ((v3 : ℕ), (v2 : ℕ))
      ((insert ((v1 : ℕ), (v2 : ℕ)) dag.arcs).erase (v2, v1))).erase (v2, v3)
  rw [Finset.erase_insert_of_ne hne]

theorem vsFold_adjEq {g0 : DGraph} (sep : ℕ → ℕ → List ℤ)
    (hIrr0 : Irrefl g0) :
    ∀ (L : List (ℕ × ℕ × ℕ)) (dag : DGraph),
      (∀ t ∈ L, skelAdj g0 t.1 t.2.1 ∧ skelAdj g0 t.2.1 t.2.2) →
      Irrefl dag →
      (∀ a b, skelAdj dag a b ↔ skelAdj g0 a b) →
      Irrefl (L.foldl (vsStep g0 sep) dag) ∧
        ∀ a b, skelAdj (L.foldl (vsStep g0 sep) dag) a b ↔ skelAdj g0 a b := by
  intro L
  induction L with
  | nil =>
    intro dag _ hI hA
    exact ⟨hI, hA⟩
  | cons t rest ih =>
    intro dag hc hI hA
    rw [List.foldl_cons]
    have ht := hc t (List.mem_cons_self _ _)
    have hstep : Irrefl (vsStep g0 sep dag t) ∧
        ∀ a b, skelAdj (vsStep g0 sep dag t) a b ↔ skelAdj g0 a b := by
      rw [vsStep]
      by_cases hcond : t.1 ≠ t.2.2 ∧ ¬ skelAdj g0 t.1 t.2.2 ∧
          ¬ (in_separation_set sep t.2.1 t.1 t.2.2 ∨
             in_separation_set sep t.2.1 t.2.2 t.1)
      · rw [if_pos hcond]
        have h12 : t.1 ≠ t.2.1 := skelAdj_ne hIrr0 ht.1
        have h23 : t.2.1 ≠ t.2.2 := skelAdj_ne hIrr0 ht.2
        have hadj1 : skelAdj dag t.1 t.2.1 := (hA _ _).2 ht.1
        rw [vsStep_fire_eq hcond.1]
        have hI1 : Irrefl (orientEdge dag t.1 t.2.1) :=
          orientEdge_irrefl h12 hI
        have hA1 : ∀ a b, skelAdj (orientEdge dag t.1 t.2.1) a b ↔
            skelAdj g0 a b :=
          fun a b => Iff.trans (orientEdge_adjEq h12 hadj1 a b) (hA a b)
        have hadj2 : skelAdj (orientEdge dag t.1 t.2.1) t.2.2 t.2.1 :=
          (hA1 _ _).2 (skelAdj_symm.1 ht.2)
        refine ⟨orientEdge_irrefl (Ne.symm h23) hI1, fun a b => ?_⟩
        exact Iff.trans (orientEdge_adjEq (Ne.symm h23) hadj2 a b) (hA1 a b)
      · rw [if_neg hcond]
        exact ⟨hI, hA⟩
    exact ih (vsStep g0 sep dag t)
      (fun q hq => hc q (List.mem_cons_of_mem _ hq)) hstep.1 hstep.2

theorem orient_v_structure_adjEq {g0 : DGraph} (sep : ℕ → ℕ → List ℤ)
    (hIrr0 : Irrefl g0) :
    Irrefl (orient_v_structure g0 sep) ∧
      ∀ a b, skelAdj (orient_v_structure g0 sep) a b ↔ skelAdj g0 a b := by
  rw [orient_v_structure]
  exact vsFold_adjEq sep hIrr0 (vsTriples g0) g0
    (fun t ht => mem_vsTriples ht) hIrr0 (fun a b => Iff.rfl)

/-! ### The edge-mark encoder: closed form of the formatting loop -/

theorem mUpd_same (m : ℕ → ℕ → ℤ) (i j : ℕ) (v : ℤ) :
    mUpd m i j v i j = v := by simp [mUpd]

theorem mUpd_ne (m : ℕ → ℕ → ℤ) {i j a b : ℕ} (v : ℤ)
    (h : ¬ (a = i ∧ b = j)) : mUpd m i j v a b = m a b := by simp [mUpd, h]

theorem fmtStep_def (m : ℕ → ℕ → ℤ) (q1 q2 : ℕ) :
    fmtStep m (q1, q2) =
      (let m1 := if m q1 q2 = 1 ∧ m q2 q1 = 1 then
        mUpd (mUpd m q1 q2 (-1)) q2 q1 (-1) else m
      if m1 q1 q2 = 1 ∧ m1 q2 q1 = 0 then
        mUpd (mUpd m1 q1 q2 (-1)) q2 q1 1 else m1) := rfl

theorem phiFmt_congr {g : DGraph} {P Q : List (ℕ × ℕ)}
    (h : ∀ x : ℕ × ℕ, x ∈ P ↔ x ∈ Q) : phiFmt g P = phiFmt g Q := by
  funext i j
  simp only [phiFmt, h]

theorem phiFmt_nil {g : DGraph} : phiFmt g [] = adjOf g := by
  funext i j
  by_cases h : (i, j) ∈ g.arcs <;> simp [phiFmt, adjOf, h]

/-- Processing one unprocessed arc advances the loop invariant. -/
theorem fmtStep_phi {g : DGraph} {P : List (ℕ × ℕ)} {q1 q2 : ℕ}
    (hq : (q1, q2) ∈ g.arcs) (hqP : ((q1 : ℕ), (q2 : ℕ)) ∉ P)
    (hP : ∀ x ∈ P, x ∈ g.arcs) :
    fmtStep (phiFmt g P) (q1, q2) = phiFmt g ((q1, q2) :: P) := by
  by_cases hA : ((q2 : ℕ), (q1 : ℕ)) ∈ P
  · have hB : ((q2 : ℕ), (q1 : ℕ)) ∈ g.arcs := hP _ hA
    have e1 : phiFmt g P q1 q2 = -1 := by simp [phiFmt, hq, hA]
    have estep : fmtStep (phiFmt g P) (q1, q2) = phiFmt g P := by
      rw [fmtStep_def]
      simp [e1]
    rw [estep]
    funext i j
    by_cases hij : i = q1 ∧ j = q2
    · obtain ⟨rfl, rfl⟩ := hij
      simp [phiFmt, hq, hA]
    · by_cases hji : i = q2 ∧ j = q1
      · obtain ⟨rfl, rfl⟩ := hji
        simp [phiFmt, hB, hA]
      · have k1 : ¬ (i = q1 ∧ j = q2) := hij
        have k2 : ¬ (j = q1 ∧ i = q2) := fun hcon => hji ⟨hcon.2, hcon.1⟩
        simp [phiFmt, k1, k2]
  · have e1 : phiFmt g P q1 q2 = 1 := by simp [phiFmt, hq, hqP, hA]
    by_cases hB : ((q2 : ℕ), (q1 : ℕ)) ∈ g.arcs
    · have e2 : phiFmt g P q2 q1 = 1 := by simp [phiFmt, hB, hA, hqP]
      have em1 : mUpd (mUpd (phiFmt g P) q1 q2 (-1)) q2 q1 (-1) q1 q2 = -1 := by
        by_cases hqq : q1 = q2
        · subst hqq
          rw [mUpd_same]
        · rw [mUpd_ne _ _ (fun hcon => hqq hcon.1), mUpd_same]
      have estep : fmtStep (phiFmt g P) (q1, q2) =
          mUpd (mUpd (phiFmt g P) q1 q2 (-1)) q2 q1 (-1) := by
        rw [fmtStep_def]
        simp [e1, e2, em1]
      rw [estep]
      funext i j
      by_cases hij : i = q1 ∧ j = q2
      · obtain ⟨rfl, rfl⟩ := hij
        rw [em1]
        simp [phiFmt, hq]
      · by_cases hji : i = q2 ∧ j = q1
        · obtain ⟨rfl, rfl⟩ := hji
          rw [mUpd_same]
          simp [phiFmt, hB]
        · rw [mUpd_ne _ _ hji, mUpd_ne _ _ hij]
          have k1 : ¬ (i = q1 ∧ j = q2) := hij
          have k2 : ¬ (j = q1 ∧ i = q2) := fun hcon => hji ⟨hcon.2, hcon.1⟩
          simp [phiFmt, k1, k2]
    · have hqq : q1 ≠ q2 := by
        intro h
        subst h
        exact hB hq
      have e2 : phiFmt g P q2 q1 = 0 := by simp [phiFmt, hB, hqP]
      have estep : fmtStep (phiFmt g P) (q1, q2) =
          mUpd (mUpd (phiFmt g P) q1 q2 (-1)) q2 q1 1 := by
        rw [fmtStep_def]
        simp [e1, e2]
      rw [estep]
      funext i j
      by_cases hij : i = q1 ∧ j = q2
      · obtain ⟨rfl, rfl⟩ := hij
        rw [mUpd_ne _ _ (fun hcon => hqq hcon.1), mUpd_same]
        simp [phiFmt, hq]
      · by_cases hji : i = q2 ∧ j = q1
        · obtain ⟨rfl, rfl⟩ := hji
          rw [mUpd_same]
          simp [phiFmt, hB, hq]
        · rw [mUpd_ne _ _ hji, mUpd_ne _ _ hij]
          have k1 : ¬ (i = q1 ∧ j = q2) := hij
          have k2 : ¬ (j = q1 ∧ i = q2) := fun hcon => hji ⟨hcon.2, hcon.1⟩
          simp [phiFmt, k1, k2]

/-- Running the loop over a block of fresh arcs extends the invariant. -/
theorem fmtFold_phi {g : DGraph} :
    ∀ (L P : List (ℕ × ℕ)),
      (∀ x ∈ L, x ∈ g.arcs) → (∀ x ∈ P, x ∈ g.arcs) →
      (∀ x ∈ L, x ∉ P) → L.Nodup →
      L.foldl fmtStep (phiFmt g P) = phiFmt g (L ++ P) := by
  intro L
  induction L with
  | nil => intro P _ _ _ _; rfl
  | cons q rest ih =>
    obtain ⟨q1, q2⟩ := q
    intro P hL hP hLP hnd
    rw [List.foldl_cons,
      fmtStep_phi (hL _ (List.mem_cons_self _ _))
        (hLP _ (List.mem_cons_self _ _)) hP]
    rw [ih ((q1, q2) :: P)
      (fun x hx => hL x (List.mem_cons_of_mem _ hx))
      (fun x hx => by
        rcases List.mem_cons.1 hx with rfl | hx'
        · exact hL _ (List.mem_cons_self _ _)
        · exact hP x hx')
      (fun x hx => by
        rw [List.mem_cons]
        rintro (rfl | hx')
        · exact (List.nodup_cons.1 hnd).1 hx
        · exact hLP x (List.mem_cons_of_mem _ hx) hx')
      (List.nodup_cons.1 hnd).2]
    apply phiFmt_congr
    intro x
    simp only [List.mem_append, List.mem_cons]
    tauto

theorem mem_rowMajorArcs_of_mem {g : DGraph} {x : ℕ × ℕ}
    (h : x ∈ rowMajorArcs g) : x ∈ g.arcs := by
  rw [rowMajorArcs, List.mem_flatMap] at h
  obtain ⟨i, -, hmem⟩ := h
  rw [List.mem_map] at hmem
  obtain ⟨j, hj, rfl⟩ := hmem
  exact of_decide_eq_true (List.mem_filter.1 hj).2

theorem mem_rowMajorArcs {g : DGraph} (hB : Bounded g) {x : ℕ × ℕ} :
    x ∈ rowMajorArcs g ↔ x ∈ g.arcs := by
  constructor
  · exact mem_rowMajorArcs_of_mem
  · intro h
    obtain ⟨x1, x2⟩ := x
    rw [rowMajorArcs, List.mem_flatMap]
    refine ⟨x1, List.mem_range.2 (hB _ h).1, ?_⟩
    rw [List.mem_map]
    exact ⟨x2, List.mem_filter.2
      ⟨List.mem_range.2 (hB _ h).2, decide_eq_true h⟩, rfl⟩

theorem rowMajorArcs_nodup (g : DGraph) : (rowMajorArcs g).Nodup := by
  rw [rowMajorArcs]
  refine List.nodup_flatMap.2 ⟨?_, ?_⟩
  · intro i _
    refine List.Nodup.map ?_ (List.Nodup.filter _ (List.nodup_range _))
    intro a b hab
    exact (Prod.mk.injEq _ _ _ _ ▸ hab : _ ∧ _).2
  · refine List.Pairwise.imp ?_ (List.nodup_range _)
    intro a b hab
    intro x hxa hxb
    rw [List.mem_map] at hxa hxb
    obtain ⟨ja, -, rfl⟩ := hxa
    obtain ⟨jb, -, heq⟩ := hxb
    rw [Prod.mk.injEq] at heq
    exact hab (by omega)

/-- Closed form of the edge-mark encoder. -/
theorem formatMatrix_eq_encode {g : DGraph} (hB : Bounded g) :
    formatMatrix g = encodeG g := by
  rw [formatMatrix, ← phiFmt_nil,
    fmtFold_phi (rowMajorArcs g) []
      (fun x hx => mem_rowMajorArcs_of_mem hx)
      (fun x hx => absurd hx (List.not_mem_nil _))
      (fun x _ => List.not_mem_nil _)
      (rowMajorArcs_nodup g),
    List.append_nil]
  funext i j
  by_cases h1 : (i, j) ∈ g.arcs
  · have hmem : ((i, j) : ℕ × ℕ) ∈ rowMajorArcs g :=
      (mem_rowMajorArcs hB).2 h1
    simp [phiFmt, encodeG, h1, hmem]
  · have hno1 : ((i, j) : ℕ × ℕ) ∉ rowMajorArcs g :=
      fun hx => h1 (mem_rowMajorArcs_of_mem hx)
    by_cases h2 : (j, i) ∈ g.arcs
    · have hmem2 : ((j, i) : ℕ × ℕ) ∈ rowMajorArcs g :=
        (mem_rowMajorArcs hB).2 h2
      simp [phiFmt, encodeG, h1, h2, hmem2, hno1]
    · have hno2 : ((j, i) : ℕ × ℕ) ∉ rowMajorArcs g :=
        fun hx => h2 (mem_rowMajorArcs_of_mem hx)
      simp [phiFmt, encodeG, h1, h2, hno1, hno2]

theorem encodeG_eq_neg_one {g : DGraph} {a b : ℕ} :
    encodeG g a b = -1 ↔ (a, b) ∈ g.arcs := by
  unfold encodeG
  split_ifs <;> simp_all

theorem encodeG_eq_one {g : DGraph} {a b : ℕ} :
    encodeG g a b = 1 ↔ ((a, b) ∉ g.arcs ∧ (b, a) ∈ g.arcs) := by
  unfold encodeG
  split_ifs <;> simp_all

theorem dgraph_ext {g h : DGraph} (hn : g.n = h.n)
    (ha : g.arcs = h.arcs) : g = h := by
  cases g
  cases h
  cases hn
  cases ha
  rfl

/-! ### Claim theorems (symbolic) -/

/-- **C2** (corrected), amended claim: Rule 1 checks the live graph
immediately before mutating (`undirected(dag, v2, v3)`), so within the
Rule 1 stage no edge that already has a single direction is ever
re-oriented; Rules 2 and 3 lack this application-time check (see the
counterexample), so the claim holds only for Rule 1. -/
theorem c2_amended (g : DGraph) (a b : ℕ)
    (h1 : (a, b) ∈ g.arcs) (h2 : (b, a) ∉ g.arcs) :
    (a, b) ∈ (pass1 g).1.arcs ∧ (b, a) ∉ (pass1 g).1.arcs := by
  rw [pass1_eq]
  exact runFirings_live_preserves_directed (rule1Cands g) (g, 0) a b h1 h2

theorem c2_witness :
    (0, 1) ∈ (pass1 singleArcG).1.arcs ∧
      (1, 0) ∉ (pass1 singleArcG).1.arcs :=
  c2_amended singleArcG 0 1 (by decide) (by decide)

/-- **C3** (corrected), amended claim: `apply_rules` terminates on every
finite input graph — iterating passes always reaches a pass that fires
no rule, with the implemented fuel sufficient — and the total arc count
never increases across a pass; however a successful rule application may
remove no arc at all (see the counterexample), so "removes exactly one
arc" holds only as "removes at most one arc". -/
theorem c3_amended :
    (∀ g : DGraph, (onePass (apply_rules g)).2 = 0) ∧
    (∀ g : DGraph, (onePass g).1.arcs.card ≤ g.arcs.card) :=
  ⟨apply_rules_fix, onePass_card_le⟩

/-- **C4** (confirmed): for every self-loop-free skeleton and every
separation-set store, an unordered pair is adjacent after
`orient_v_structure` followed by `apply_rules` iff it is adjacent in the
input skeleton: orientation neither adds an adjacency nor removes both
arcs of an edge. -/
theorem c4_skeleton_preservation (g0 : DGraph) (sep : ℕ → ℕ → List ℤ)
    (hIrr : Irrefl g0) (a b : ℕ) :
    skelAdj (apply_rules (orient_v_structure g0 sep)) a b ↔
      skelAdj g0 a b := by
  have h1 := orient_v_structure_adjEq sep hIrr
  have h2 := apply_rules_adjEq h1.1 h1.2
  exact h2.2 a b

theorem c4_witness :
    skelAdj (apply_rules (orient_v_structure pathSkel3 emptySep3)) 0 1 ↔
      skelAdj pathSkel3 0 1 :=
  c4_skeleton_preservation pathSkel3 emptySep3
    (by intro i hmem; simp [pathSkel3] at hmem; omega) 0 1

/-- **C5** (corrected), amended claim: when a pair's separation-set rows
hold only the `-1` sentinel (no recorded entry), the sepset test of
`orient_v_structure` silently evaluates to "the middle vertex is not in
the separation set" — the node index, being non-negative, can never
equal the sentinel — and the collider is oriented; no error is raised. -/
theorem c5_amended (sep : ℕ → ℕ → List ℤ) (v1 v2 v3 : ℕ)
    (h13 : ∀ x ∈ sep v1 v3, x = (-1 : ℤ))
    (h31 : ∀ x ∈ sep v3 v1, x = (-1 : ℤ)) :
    ¬ (in_separation_set sep v2 v1 v3 ∨ in_separation_set sep v2 v3 v1) := by
  rintro (h | h)
  · have := h13 _ h
    omega
  · have := h31 _ h
    omega

theorem c5_witness :
    ¬ (in_separation_set emptySep3 1 0 2 ∨
       in_separation_set emptySep3 1 2 0) :=
  c5_amended emptySep3 0 1 2 (by decide) (by decide)

/-- **C6** (corrected), amended claim: the final arc set of
`orient_v_structure` can depend on the enumeration order of the triples
(see the counterexample), but any two enumeration orders yield the same
adjacency relation: collider orientation never creates or destroys an
adjacency, whatever the order. -/
theorem c6_amended (g0 : DGraph) (sep : ℕ → ℕ → List ℤ)
    (L1 L2 : List (ℕ × ℕ × ℕ)) (hIrr : Irrefl g0)
    (h1 : L1.Perm (vsTriples g0)) (h2 : L2.Perm (vsTriples g0)) (a b : ℕ) :
    (skelAdj (L1.foldl (vsStep g0 sep) g0) a b ↔
      skelAdj (L2.foldl (vsStep g0 sep) g0) a b) := by
  have r1 := vsFold_adjEq sep hIrr L1 g0
    (fun t ht => mem_vsTriples (h1.mem_iff.1 ht)) hIrr (fun x y => Iff.rfl)
  have r2 := vsFold_adjEq sep hIrr L2 g0
    (fun t ht => mem_vsTriples (h2.mem_iff.1 ht)) hIrr (fun x y => Iff.rfl)
  exact Iff.trans (r1.2 a b) (r2.2 a b).symm

theorem c6_witness :
    skelAdj ((vsTriples pathSkel4).foldl (vsStep pathSkel4 emptySep4)
        pathSkel4) 1 2 ↔
      skelAdj ((vsTriples pathSkel4).reverse.foldl
        (vsStep pathSkel4 emptySep4) pathSkel4) 1 2 :=
  c6_amended pathSkel4 emptySep4 (vsTriples pathSkel4)
    (vsTriples pathSkel4).reverse
    (by intro i hmem; simp [pathSkel4] at hmem; omega)
    (List.Perm.refl _) (List.reverse_perm _) 1 2

/-- **C7** (corrected), amended claim: with the decode rule matching the
encoder of the source — `matrix[j][i] == 1` (equivalently
`matrix[i][j] == -1, matrix[j][i] == 1`) means the arc `i → j`, both
entries `-1` means undirected — decoding recovers the arc set exactly,
and re-encoding yields the original matrix. -/
theorem c7_amended (g : DGraph) (hB : Bounded g) :
    decodeFixedRule (formatMatrix g) g.n = g ∧
    ∀ i j, formatMatrix (decodeFixedRule (formatMatrix g) g.n) i j =
      formatMatrix g i j := by
  have hfmt : formatMatrix g = encodeG g := formatMatrix_eq_encode hB
  have harcs : (decodeFixedRule (formatMatrix g) g.n).arcs = g.arcs := by
    ext x
    obtain ⟨x1, x2⟩ := x
    simp only [decodeFixedRule, Finset.mem_filter, Finset.mem_product,
      Finset.mem_range, hfmt]
    constructor
    · rintro ⟨-, hcond | ⟨hcond1, -⟩⟩
      · exact (encodeG_eq_one.1 hcond).2
      · exact encodeG_eq_neg_one.1 hcond1
    · intro h
      refine ⟨⟨(hB _ h).1, (hB _ h).2⟩, ?_⟩
      by_cases h2 : ((x2 : ℕ), (x1 : ℕ)) ∈ g.arcs
      · exact Or.inr ⟨encodeG_eq_neg_one.2 h, encodeG_eq_neg_one.2 h2⟩
      · exact Or.inl (encodeG_eq_one.2 ⟨h2, h⟩)
  have hg : decodeFixedRule (formatMatrix g) g.n = g := dgraph_ext rfl harcs
  exact ⟨hg, fun i j => by rw [hg]⟩

theorem c7_witness :
    decodeFixedRule (formatMatrix singleArcG) singleArcG.n = singleArcG :=
  (c7_amended singleArcG (by decide)).1

/-- **C8** (code_bug): for `indep_test = "chisq"` the dispatcher returns
the backend's directed-graph object as the first component — the
formatted adjacency matrix is computed by `chi_square_gpu_gpucsl` but
not returned — so the result is not an `n × n` matrix with entries in
`{-1, 0, 1}` at all; this contradicts the function's own docstring and
the parallel Fisher-Z path, which returns the matrix. -/
theorem c8_chisq_returns_graph (gpu : Bool) (fzG chG cmSkel : DGraph)
    (cmSep : ℕ → ℕ → List ℤ) :
    accelerated_pc "chisq" gpu fzG chG cmSkel cmSep =
      Except.ok (PCValue.digraph chG) ∧
    (∀ (m : ℕ → ℕ → ℤ) (k : ℕ), PCValue.digraph chG ≠ PCValue.mat m k) ∧
    accelerated_pc "fisherz" gpu fzG chG cmSkel cmSep =
      Except.ok (PCValue.mat (formatMatrix fzG) fzG.n) := by
  refine ⟨?_, ?_, ?_⟩
  · unfold accelerated_pc
    rw [if_neg (fun hcon => absurd hcon.1 (by decide)),
      if_neg (by decide), if_pos rfl]
    rfl
  · intro m k h
    exact PCValue.noConfusion h
  · unfold accelerated_pc
    rw [if_neg (fun hcon => absurd hcon.1 (by decide)), if_pos rfl]
    rfl

/-- **C9** (confirmed): any independence-test identifier outside the
supported set is rejected by the dispatcher with the `ValueError`
message naming the three supported identifiers; the result does not
depend on (and never invokes) any backend, so no partial computation is
performed. -/
theorem c9_unsupported_rejected (t : String) (gpu : Bool)
    (fzG chG cmSkel : DGraph) (cmSep : ℕ → ℕ → List ℤ)
    (h : t ∉ supportedTests) :
    accelerated_pc t gpu fzG chG cmSkel cmSep =
      Except.error (unsupportedMsg t) ∧
    ∃ s1 s2 s3 s4 : String,
      unsupportedMsg t =
        s1 ++ "fisherz" ++ s2 ++ "chisq" ++ s3 ++ "cmiknn" ++ s4 := by
  have h1 : t ≠ "fisherz" := fun hc => h (by rw [hc]; decide)
  have h2 : t ≠ "chisq" := fun hc => h (by rw [hc]; decide)
  have h3 : t ≠ "cmiknn" := fun hc => h (by rw [hc]; decide)
  constructor
  · unfold accelerated_pc
    rw [if_neg (fun hcon => h3 hcon.1), if_neg h1, if_neg h2, if_neg h3]
  · refine ⟨"Independence test '" ++ (t ++ "' not supported. Use '"),
      "', '", "', or '", "'.", ?_⟩
    unfold unsupportedMsg
    simp [String.append_assoc]

theorem c9_witness :
    accelerated_pc "kci" true pathSkel3 pathSkel3 pathSkel3 emptySep3 =
      Except.error (unsupportedMsg "kci") :=
  (c9_unsupported_rejected "kci" true pathSkel3 pathSkel3 pathSkel3
    emptySep3 (by decide)).1

/-- **C10** (confirmed): packing a recorded separation set into the
sentinel-padded row keeps exactly its first `max_sepset_size` entries —
membership of any node index in the packed row is membership in the
truncated prefix — so a variable beyond that prefix is silently dropped
and treated as absent by `in_separation_set`, with no error raised;
witnessed concretely by the sepset `[0, 1, 2]` truncated to size 2,
which loses the variable `2`. -/
theorem c10_truncation :
    (∀ (s : List ℤ) (m : ℕ) (v : ℕ),
      ((v : ℤ) ∈ packSepset s m ↔ (v : ℤ) ∈ s.take m)) ∧
    ((2 : ℤ) ∈ ([0, 1, 2] : List ℤ) ∧
      ¬ in_separation_set (fun _ _ => packSepset [0, 1, 2] 2) 2 0 1) := by
  refine ⟨?_, by decide, by decide⟩
  intro s m v
  rw [packSepset]
  constructor
  · intro h
    rw [List.mem_map] at h
    obtain ⟨k, hk, hval⟩ := h
    rw [List.mem_range] at hk
    by_cases hlen : k < s.length
    · rw [dif_pos hlen] at hval
      rw [List.mem_take_iff_getElem]
      refine ⟨k, by omega, ?_⟩
      simpa using hval
    · rw [dif_neg hlen] at hval
      omega
  · intro h
    rw [List.mem_take_iff_getElem] at h
    obtain ⟨k, hk, hval⟩ := h
    have hk' : k < m ∧ k < s.length := by
      constructor <;> omega
    rw [List.mem_map]
    refine ⟨k, List.mem_range.2 hk'.1, ?_⟩
    rw [dif_pos hk'.2]
    simpa using hval

end CausalPC
